import Mathlib

/-!
Shallow embedding of the core of `src/system.c` (Gauche's system interface):
pathname normalization (`Scm_NormalizePathname`), process replacement
(`Scm_SysExec`) with its descriptor remap and close loops, and the
`select` wrappers (`select_timeval`, `select_int`, `Scm_SysSelect`,
`Scm_SysSelectX`).

Strings are modelled as `List Char` (the C code treats the path as a raw
byte sequence with `/`, `.`, `~` and NUL the only distinguished bytes).
File descriptor tables are association lists from descriptor numbers to
abstract open-file tokens.  OS lookups (`getpwuid`, `getpwnam`, `getcwd`)
and the `select` system call itself are oracles passed in as parameters.
-/

set_option autoImplicit false

namespace SysC

/-! ## Pathname normalization: `Scm_NormalizePathname` (system.c lines 141-251) -/

/-- The NUL byte, which terminates the `~user` scan in the C code. -/
def nulChar : Char := Char.ofNat 0

/-- The `SKIP_SLASH` step: advance `srcp` over a run of `/` characters. -/
def skipSlash : List Char → List Char
  | [] => []
  | c :: rest => if c = '/' then skipSlash rest else c :: rest

/-- The verbatim segment copy `while ((*dstp++ = *srcp++) != '/' && srcp < str+size);`
(a do-while: at least one character is copied, copying stops right after a `/`
is copied or the source is exhausted).  The output buffer is kept reversed;
returns the new reversed output and the remaining source. -/
def copySeg : List Char → List Char → List Char × List Char
  | [], acc => (acc, [])
  | c :: rest, acc => if c = '/' then (c :: acc, rest) else copySeg rest (c :: acc)

/-- The `..` back-up scan (system.c lines 228-234): `q` starts at `dstp-2` and
walks down to `buf` looking for a `/`.  The output buffer is reversed, so this
is: drop the newest character, then drop characters until a `/` is on top.
`some acc'` models `dstp = q+1` (the found `/` is kept); `none` models `q < buf`
(no previous `/`, the "below root" case). -/
def backUp (acc : List Char) : Option (List Char) :=
  match acc with
  | [] => none
  | _ :: rest =>
    match rest.dropWhile (fun c => c ≠ '/') with
    | [] => none
    | r => some r

/-- The canonicalization scan loop (system.c lines 213-248), fuelled by the
number of remaining source characters (every iteration consumes at least one
source character, so `fuel = src.length` is enough).  `acc` is the reversed
output buffer, `bottomp` the below-root flag. -/
def canonLoop : Nat → List Char → List Char → Bool → List Char
  | 0, _, acc, _ => acc
  | fuel + 1, s, acc, bottomp =>
    match s with
    | [] => acc
    | c :: rest =>
      if c = '.' then
        match rest with
        | [] => '.' :: acc                 -- trailing lone dot preserved, break
        | c2 :: rest2 =>
          if c2 = '/' then
            canonLoop fuel (skipSlash rest2) acc bottomp     -- "./" dropped
          else if bottomp = false ∧ c2 = '.' ∧ (rest2 = [] ∨ rest2.head? = some '/') then
            match backUp acc with
            | some acc2 => canonLoop fuel (rest2.drop 1) acc2 bottomp
            | none => canonLoop fuel (rest2.drop 1) ('/' :: '.' :: '.' :: acc) true
          else
            let p := copySeg s acc
            canonLoop fuel (skipSlash p.2) p.1 bottomp
      else
        let p := copySeg s acc
        canonLoop fuel (skipSlash p.2) p.1 bottomp

/-- The pure-canonicalize branch of `Scm_NormalizePathname` (no tilde or cwd
prefix): a leading `/` is emitted and the following slash run skipped before
the scan loop starts. -/
def canonPath (str : List Char) : List Char :=
  match str with
  | '/' :: rest => (canonLoop str.length (skipSlash rest) ['/'] false).reverse
  | _ => (canonLoop str.length str [] false).reverse

/-- Flags of `Scm_NormalizePathname`: `SCM_PATH_EXPAND`, `SCM_PATH_ABSOLUTE`,
`SCM_PATH_CANONICALIZE`. -/
structure PathFlags where
  expand : Bool
  absolute : Bool
  canonicalize : Bool
deriving DecidableEq

/-- The OS environment consulted by `Scm_NormalizePathname`:
`selfHome` models `getpwuid(geteuid())->pw_dir` (`none` = lookup failure),
`userHome` models `getpwnam(user)->pw_dir`, `cwd` models `getcwd`. -/
structure PathEnv where
  selfHome : Option (List Char)
  userHome : List Char → Option (List Char)
  cwd : Option (List Char)

/-- Errors raised by `Scm_NormalizePathname`. -/
inductive PathErr
  | homeNotFound   -- "couldn't get home directory."
  | userNotFound   -- "couldn't get home directory of user ..."
  | cwdFailed      -- "couldn't get current directory."
deriving DecidableEq

/-- The `~user` home-directory lookup (system.c lines 159-175): empty user
name means the invoking user. -/
def tildeHome (env : PathEnv) (user : List Char) : Except PathErr (List Char) :=
  if user = [] then
    match env.selfHome with
    | none => .error .homeNotFound
    | some d => .ok d
  else
    match env.userHome user with
    | none => .error .userNotFound
    | some d => .ok d

/-- The separator step `if (*(dstp-1) != '/') *dstp++ = '/';`: append a separator to a directory
prefix unless it already ends in one.  (The C code reads `buf[-1]` when the
directory is empty; theorems below assume a nonempty directory.) -/
def dirSep (d : List Char) : List Char :=
  d ++ (if d.getLast? = some '/' then [] else ['/'])

/-- The function `Scm_NormalizePathname` (system.c lines 141-251).  Branch structure of the
source: tilde expansion if `SCM_PATH_EXPAND` and the path starts with `~`;
else cwd prefixing if `SCM_PATH_ABSOLUTE` and the path does not start with
`/`; else the canonicalize setup if `SCM_PATH_CANONICALIZE`; else identity.
After the first two branches the code falls through to the canonicalization
scan loop whenever `SCM_PATH_CANONICALIZE` is set, continuing in the same
output buffer. -/
def Scm_NormalizePathname (env : PathEnv) (flags : PathFlags) (str : List Char) :
    Except PathErr (List Char) :=
  if flags.expand = true ∧ str.head? = some '~' then
    let user := (str.drop 1).takeWhile (fun c => c ≠ '/' ∧ c ≠ nulChar)
    match tildeHome env user with
    | .error e => .error e
    | .ok dir =>
      let rest := skipSlash (str.drop (1 + user.length))
      if flags.canonicalize then
        .ok ((canonLoop rest.length rest (dirSep dir).reverse false).reverse)
      else
        .ok (dirSep dir ++ rest)
  else if flags.absolute = true ∧ str.head? ≠ some '/' then
    match env.cwd with
    | none => .error .cwdFailed
    | some d =>
      if flags.canonicalize then
        .ok ((canonLoop str.length str (dirSep d).reverse false).reverse)
      else
        .ok (dirSep d ++ str)
  else if flags.canonicalize = true then
    .ok (canonPath str)
  else
    .ok str

/-! ## Process replacement: `Scm_SysExec` (system.c lines 640-727) -/

/-- The process's descriptor table: an association list from descriptor
numbers to abstract open-file tokens (the first matching entry wins).
Descriptor numbers are `Int` because `Scm_SysExec` never checks mapping
targets for sign. -/
abbrev FdTable := List (Int × Nat)

/-- Which open file a descriptor refers to (`none` = closed). -/
def fdLookup (t : FdTable) (fd : Int) : Option Nat :=
  (t.find? (fun en => en.1 = fd)).map (fun en => en.2)

/-- Effect of `dup2(_, fd)` / `dup` on the table: `fd` now refers to file `v`. -/
def fdSet (t : FdTable) (fd : Int) (v : Nat) : FdTable := (fd, v) :: t

/-- Effect of `close(fd)` on the table. -/
def fdClose (t : FdTable) (fd : Int) : FdTable := t.filter (fun en => en.1 ≠ fd)

/-- The call `dup` allocates the lowest-numbered free descriptor below the descriptor
table limit; `none` models failure (`EMFILE`). -/
def freshFd (maxfd : Nat) (t : FdTable) : Option Nat :=
  (List.range maxfd).find? (fun n => (fdLookup t (n : Int)).isNone)

/-- The inner conflict-protection scan of the remap loop (system.c lines
706-711): walking the entries after the current one, every entry whose
(current) source equals the current target gets redirected to a fresh
duplicate of that target.  `Except.error` models `Scm_Panic` (carrying the
table at the moment of the failed `dup`). -/
def protectStep (maxfd : Nat) (t : FdTable) (tgt : Int) :
    List (Int × Int) → Except FdTable (FdTable × List (Int × Int))
  | [] => .ok (t, [])
  | (toJ, fromJ) :: rest =>
    if fromJ = tgt then
      match freshFd maxfd t, fdLookup t tgt with
      | some tmp, some v =>
        match protectStep maxfd (fdSet t (tmp : Int) v) tgt rest with
        | .error tp => .error tp
        | .ok (tp, r) => .ok (tp, (toJ, (tmp : Int)) :: r)
      | _, _ => .error t
    else
      match protectStep maxfd t tgt rest with
      | .error tp => .error tp
      | .ok (tp, r) => .ok (tp, (toJ, fromJ) :: r)

/-- The conflict-avoiding remap loop of `Scm_SysExec` (system.c lines
704-715), fuelled by the number of remaining entries (`protectStep`
preserves the list length, so `fuel = entries.length` is enough): entries
whose source already equals their target are skipped; otherwise later
conflicting sources are protected and `dup2(fromfd[i], tofd[i])` is
performed.  `Except.error` models `Scm_Panic` (failed `dup` or `dup2`),
carrying the table at that point. -/
def remapLoopF (maxfd : Nat) : Nat → FdTable → List (Int × Int) → Except FdTable FdTable
  | _, t, [] => .ok t
  | 0, t, _ :: _ => .ok t
  | fuel + 1, t, (toI, fromI) :: rest =>
    if toI = fromI then remapLoopF maxfd fuel t rest
    else
      match protectStep maxfd t toI rest with
      | .error tp => .error tp
      | .ok (t1, rest1) =>
        match fdLookup t1 fromI with
        | none => .error t1
        | some v =>
          if toI < 0 ∨ (maxfd : Int) ≤ toI then .error t1
          else remapLoopF maxfd fuel (fdSet t1 toI v) rest1

/-- The remap loop on a full entry list. -/
def remapLoop (maxfd : Nat) (t : FdTable) (entries : List (Int × Int)) :
    Except FdTable FdTable :=
  remapLoopF maxfd entries.length t entries

/-- The last mapping entry whose target is `fd` (`dup2` gives last-write-wins
semantics when a target is repeated). -/
def lastEntryFor (fd : Int) (l : List (Int × Int)) : Option (Int × Int) :=
  l.reverse.find? (fun en => en.1 = fd)

/-- The close loop of `Scm_SysExec` (system.c lines 716-721): every
descriptor in `[0, maxfd)` that equals no entry's target is closed. -/
def closeLoop (maxfd : Nat) (targets : List Int) (t : FdTable) : FdTable :=
  (List.range maxfd).foldl
    (fun (acc : FdTable) (i : Nat) =>
      if targets.any (fun tf => tf = (i : Int)) then acc else fdClose acc (i : Int))
    t

/-- A Scheme port as seen by the iomap validation code: `Scm_PortFileNo`
(`none` models a port with no associated descriptor), `SCM_IPORTP`,
`SCM_OPORTP`. -/
structure PortVal where
  fileNo : Option Nat
  isInput : Bool
  isOutput : Bool
deriving DecidableEq

/-- The `cdr` of an iomap entry: an integer, a port, or any other object. -/
inductive IoSrc
  | int (n : Int)
  | port (p : PortVal)
  | other
deriving DecidableEq

/-- The `car` of an iomap entry. -/
inductive IoTgt
  | int (n : Int)
  | other
deriving DecidableEq

/-- One element of the iomap list: a pair `(car . cdr)`, or a non-pair. -/
inductive IoEntry
  | pair (car : IoTgt) (cdr : IoSrc)
  | notPair
deriving DecidableEq

/-- The iomap argument of `Scm_SysExec`: not a pair (descriptors untouched;
this includes the empty list, which is not a pair in Scheme), or a pair
heading a list of entries, possibly improper (`Scm_Length < 0`). -/
inductive IoMap
  | notPair
  | list (entries : List IoEntry) (improper : Bool)

/-- Validation of one iomap entry (system.c lines 672-696): the entry must
be a pair of a small integer and an int-or-port; a port source must have an
associated descriptor, and a port mapped to targets 0/1/2 must have the
matching direction.  Produces the `(tofd, fromfd)` pair. -/
def validateEntry : IoEntry → Except Unit (Int × Int)
  | .notPair => .error ()
  | .pair c s =>
    match c, s with
    | .other, _ => .error ()
    | .int _, .other => .error ()
    | .int tfd, .int sfd => .ok (tfd, sfd)
    | .int tfd, .port p =>
      match p.fileNo with
      | none => .error ()
      | some n =>
        if tfd = 0 ∧ p.isInput = false then .error ()
        else if tfd = 1 ∧ p.isOutput = false then .error ()
        else if tfd = 2 ∧ p.isOutput = false then .error ()
        else .ok (tfd, (n : Int))

/-- The validation loop over the whole iomap (system.c lines 671-698),
run in full before any descriptor is touched. -/
def validateIomap : List IoEntry → Except Unit (List (Int × Int))
  | [] => .ok []
  | en :: rest =>
    match validateEntry en with
    | .error _ => .error ()
    | .ok p =>
      match validateIomap rest with
      | .error _ => .error ()
      | .ok ps => .ok (p :: ps)

/-- An element of the `args` list: a string or any other object. -/
inductive ArgVal
  | str
  | nonStr
deriving DecidableEq

/-- Whether an argument is a string (`SCM_STRINGP`). -/
def ArgVal.isStr : ArgVal → Bool
  | .str => true
  | .nonStr => false

/-- Outcome of `Scm_SysExec`: a recoverable `Scm_Error` raised while the
descriptor table is in the given state, a fatal `Scm_Panic` with the table
at that point, or reaching `execvp` with the given final table. -/
inductive ExecOutcome
  | argError (t : FdTable)
  | fatal (t : FdTable)
  | execed (t : FdTable)
deriving DecidableEq

/-- The function `Scm_SysExec` (system.c lines 640-727) up to the `execvp` call.
`maxfd` is the `sysconf(_SC_OPEN_MAX)` value (assumed to succeed).
Control flow of the source: argument-list checks, then (for a pair iomap)
proper-list check and entry validation, then the remap loop, then the
close loop, then `execvp`. -/
def Scm_SysExec (maxfd : Nat) (t : FdTable) (args : List ArgVal) (iomap : IoMap) :
    ExecOutcome :=
  if args.length < 1 then .argError t
  else if args.any (fun a => a.isStr = false) then .argError t
  else
    match iomap with
    | .notPair => .execed t
    | .list entries improper =>
      if improper then .argError t
      else
        match validateIomap entries with
        | .error _ => .argError t
        | .ok pairs =>
          match remapLoop maxfd t pairs with
          | .error tp => .fatal tp
          | .ok t1 => .execed (closeLoop maxfd (pairs.map (fun p => p.1)) t1)

/-! ## select (system.c lines 733-842) -/

/-- The `<sys-fdset>` object: the `fd_set` bitmask (modelled as the list of
member descriptors) plus the cached maximum member `maxfd`. -/
structure SysFdset where
  maxfd : Int
  fdset : List Nat
deriving DecidableEq

/-- The helper `fdset_copy` (system.c lines 743-750): copies both fields. -/
def fdset_copy (s : SysFdset) : SysFdset := ⟨s.maxfd, s.fdset⟩

/-- A Scheme number as tested by `Scm_IntegerP` / read by `Scm_GetInteger`. -/
inductive ScmNum
  | int (n : Int)
  | nonInt
deriving DecidableEq

/-- The timeout argument of the select wrappers.  `flonum` carries the
integer produced by `Scm_GetInteger`; that conversion lives outside this
repository's core, so it is modelled from the spec as an integral
microsecond value.  `listVal` models a proper list of Scheme objects. -/
inductive Timeout
  | falseVal
  | fixnum (n : Int)
  | bignum (n : Int)
  | flonum (n : Int)
  | listVal (elems : List ScmNum)
  | otherVal
deriving DecidableEq

/-- Errors of the select path: `badtv` (`Scm_Error`, a validation error) and
`Scm_SysError "select failed"`. -/
inductive SelErr
  | badTimeout
  | selectFailed
deriving DecidableEq

/-- The helper `select_timeval` (system.c lines 763-801): decodes the timeout into a
`struct timeval` (`none` = `NULL`, block indefinitely), raising `badtv` for
negative or unrecognized values. -/
def select_timeval : Timeout → Except SelErr (Option (Int × Int))
  | .falseVal => .ok none
  | .fixnum n =>
    if n < 0 then .error .badTimeout else .ok (some (n / 1000000, n % 1000000))
  | .bignum n =>
    if n < 0 then .error .badTimeout else .ok (some (n / 1000000, n % 1000000))
  | .flonum n =>
    if n < 0 then .error .badTimeout else .ok (some (n / 1000000, n % 1000000))
  | .listVal (a :: b :: _) =>
    match a, b with
    | .int isec, .int iusec =>
      if isec < 0 ∨ iusec < 0 then .error .badTimeout else .ok (some (isec, iusec))
    | _, _ => .error .badTimeout
  | .listVal _ => .error .badTimeout
  | .otherVal => .error .badTimeout

/-- A timeout value with a negative component in its encoding (negative
microsecond count, or a negative first or second list element). -/
def Timeout.hasNegative : Timeout → Prop
  | .fixnum n => n < 0
  | .bignum n => n < 0
  | .flonum n => n < 0
  | .listVal (.int a :: .int b :: _) => a < 0 ∨ b < 0
  | _ => False

/-- A heap of `<sys-fdset>` objects: Scheme fdset objects are mutable, so
they are modelled as references into a store. -/
structure FdsetStore where
  nextRef : Nat
  refs : List (Nat × SysFdset)

/-- Dereference an fdset object. -/
def storeGet (st : FdsetStore) (r : Nat) : Option SysFdset :=
  (st.refs.find? (fun en => en.1 = r)).map (fun en => en.2)

/-- Overwrite an fdset object in place. -/
def storeSet (st : FdsetStore) (r : Nat) (v : SysFdset) : FdsetStore :=
  ⟨st.nextRef, (r, v) :: st.refs⟩

/-- Allocate a new fdset object (`SCM_NEW`). -/
def storeAlloc (st : FdsetStore) (v : SysFdset) : Nat × FdsetStore :=
  (st.nextRef, ⟨st.nextRef + 1, (st.nextRef, v) :: st.refs⟩)

/-- Store well-formedness: every live reference is below `nextRef`. -/
def StoreWF (st : FdsetStore) : Prop := ∀ en ∈ st.refs, en.1 < st.nextRef

/-- The `select` system call as an oracle: given `nfds` (`maxfds+1`), the
three set values passed by pointer (`none` = `NULL`) and the timeout, it
returns the ready count and the membership it writes back through each
pointer. -/
def OsSelect : Type :=
  Int → Option SysFdset → Option SysFdset → Option SysFdset →
    Option (Int × Int) → Int × List Nat × List Nat × List Nat

/-- The `maxfds` computation of `select_int` (system.c lines 806-810). -/
def selMaxfds (r w e : Option SysFdset) : Int :=
  let m1 : Int := match r with | some s => s.maxfd | none => 0
  let m2 : Int := match w with | some s => if s.maxfd > m1 then s.maxfd else m1 | none => m1
  match e with | some s => if s.maxfd > m2 then s.maxfd else m2 | none => m2

/-- The write-back `select` performs through one non-NULL `fd_set` pointer:
the bitmask is replaced by the ready membership; the Scheme-side `maxfd`
cache is untouched. -/
def writeReady (st : FdsetStore) (r : Option Nat) (mem : List Nat) : FdsetStore :=
  match r with
  | none => st
  | some i =>
    match storeGet st i with
    | none => st
    | some s => storeSet st i ⟨s.maxfd, mem⟩

/-- The helper `select_int` (system.c lines 803-823): computes `maxfds`, decodes the
timeout (inside the argument list of `select`, hence before the OS call),
performs the OS call, and surfaces a negative return as an error. -/
def select_int (os : OsSelect) (st : FdsetStore) (r w e : Option Nat) (timeout : Timeout) :
    Except SelErr (FdsetStore × Int × Option Nat × Option Nat × Option Nat) :=
  let rv := r.bind (storeGet st)
  let wv := w.bind (storeGet st)
  let ev := e.bind (storeGet st)
  match select_timeval timeout with
  | .error er => .error er
  | .ok tm =>
    match os (selMaxfds rv wv ev + 1) rv wv ev tm with
    | (numfds, rm, wm, em) =>
      if numfds < 0 then .error .selectFailed
      else
        let st1 := writeReady st r rm
        let st2 := writeReady st1 w wm
        let st3 := writeReady st2 e em
        .ok (st3, numfds, r, w, e)

/-- The copy step of the non-destructive form: a present set is replaced by
a freshly allocated `fdset_copy`; an absent set stays absent.  (A present
but dangling reference cannot arise from `select_checkfd`; it is passed
through unchanged.) -/
def copyArg (st : FdsetStore) (r : Option Nat) : Option Nat × FdsetStore :=
  match r with
  | none => (none, st)
  | some i =>
    match storeGet st i with
    | none => (some i, st)
    | some v =>
      let a := storeAlloc st (fdset_copy v)
      (some a.1, a.2)

/-- The function `Scm_SysSelect` (system.c lines 825-834): the non-destructive form,
operating on private copies of the present sets. -/
def Scm_SysSelect (os : OsSelect) (st : FdsetStore) (r w e : Option Nat) (timeout : Timeout) :
    Except SelErr (FdsetStore × Int × Option Nat × Option Nat × Option Nat) :=
  let pr := copyArg st r
  let pw := copyArg pr.2 w
  let pe := copyArg pw.2 e
  select_int os pe.2 pr.1 pw.1 pe.1 timeout

/-- The function `Scm_SysSelectX` (system.c lines 836-842): the destructive form,
operating directly on the caller's sets. -/
def Scm_SysSelectX (os : OsSelect) (st : FdsetStore) (r w e : Option Nat) (timeout : Timeout) :
    Except SelErr (FdsetStore × Int × Option Nat × Option Nat × Option Nat) :=
  select_int os st r w e timeout

/-! ## Lemmas: the descriptor table -/

theorem fdLookup_fdSet_self (t : FdTable) (fd : Int) (v : Nat) :
    fdLookup (fdSet t fd v) fd = some v := by
  simp [fdLookup, fdSet, List.find?]

theorem fdLookup_fdSet_ne (t : FdTable) (fd fd' : Int) (v : Nat) (h : fd' ≠ fd) :
    fdLookup (fdSet t fd v) fd' = fdLookup t fd' := by
  simp [fdLookup, fdSet, List.find?, Ne.symm h]

theorem fdLookup_fdClose (t : FdTable) (fd fd' : Int) :
    fdLookup (fdClose t fd) fd' = if fd' = fd then none else fdLookup t fd' := by
  induction t with
  | nil => simp [fdLookup, fdClose]
  | cons a tl ih =>
    by_cases ha : a.1 = fd
    · have h1 : fdClose (a :: tl) fd = fdClose tl fd := by
        simp [fdClose, List.filter_cons, ha]
      rw [h1, ih]
      by_cases hfd : fd' = fd
      · simp [hfd]
      · have hne : ¬ a.1 = fd' := by
          rw [ha]; exact fun hh => hfd hh.symm
        simp [hfd, fdLookup, List.find?, hne]
    · have h1 : fdClose (a :: tl) fd = a :: fdClose tl fd := by
        simp [fdClose, List.filter_cons, ha]
      rw [h1]
      by_cases ha' : a.1 = fd'
      · have hfd : ¬ fd' = fd := fun hh => ha (ha'.trans hh)
        simp [fdLookup, List.find?, ha', hfd]
      · have h2 : fdLookup (a :: fdClose tl fd) fd' = fdLookup (fdClose tl fd) fd' := by
          simp [fdLookup, List.find?, ha']
        rw [h2, ih]
        by_cases hfd : fd' = fd
        · simp [hfd]
        · simp [hfd, fdLookup, List.find?, ha']

theorem freshFd_some (maxfd : Nat) (t : FdTable) (n : Nat)
    (h : freshFd maxfd t = some n) :
    fdLookup t (n : Int) = none ∧ n < maxfd := by
  unfold freshFd at h
  refine ⟨?_, ?_⟩
  · have := List.find?_some h
    simpa using this
  · have hm := List.mem_of_find?_eq_some h
    simpa using hm

theorem protectStep_ok (maxfd : Nat) (tgt : Int) :
    ∀ (rest : List (Int × Int)) (t t1 : FdTable) (rest1 : List (Int × Int)),
      protectStep maxfd t tgt rest = .ok (t1, rest1) →
      rest1.map (fun en => en.1) = rest.map (fun en => en.1) ∧
      rest1.length = rest.length ∧
      (∀ f, (fdLookup t f).isSome → fdLookup t1 f = fdLookup t f) := by
  intro rest
  induction rest with
  | nil =>
    intro t t1 rest1 h
    simp only [protectStep, Except.ok.injEq, Prod.mk.injEq] at h
    obtain ⟨h1, h2⟩ := h
    subst h1; subst h2
    simp
  | cons hd tl ih =>
    intro t t1 rest1 h
    obtain ⟨toJ, fromJ⟩ := hd
    simp only [protectStep] at h
    split at h
    · -- fromJ = tgt
      rename_i hf
      split at h
      · rename_i tmp v hfr hlk
        split at h
        · exact Except.noConfusion h
        · rename_i tp r hrec
          simp only [Except.ok.injEq, Prod.mk.injEq] at h
          obtain ⟨h1, h2⟩ := h
          subst h1; subst h2
          obtain ⟨hk, hl, hpres⟩ := ih (fdSet t (tmp : Int) v) tp r hrec
          have hfresh : fdLookup t (tmp : Int) = none := (freshFd_some maxfd t tmp hfr).1
          refine ⟨by simpa using hk, by simpa using hl, ?_⟩
          intro f hop
          have hftmp : f ≠ (tmp : Int) := by
            intro hh
            rw [hh, hfresh] at hop
            cases hop
          have hset : fdLookup (fdSet t (tmp : Int) v) f = fdLookup t f :=
            fdLookup_fdSet_ne t (tmp : Int) f v hftmp
          rw [hpres f (by rw [hset]; exact hop), hset]
      · exact Except.noConfusion h
    · rename_i hf
      split at h
      · exact Except.noConfusion h
      · rename_i tp r hrec
        simp only [Except.ok.injEq, Prod.mk.injEq] at h
        obtain ⟨h1, h2⟩ := h
        subst h1; subst h2
        obtain ⟨hk, hl, hpres⟩ := ih t tp r hrec
        exact ⟨by simpa using hk, by simpa using hl, hpres⟩

/-! ## Lemmas: Forall2 and lastEntryFor -/

theorem forall2_imp_mem {R S : (Int × Int) → (Int × Int) → Prop} :
    ∀ (l l' : List (Int × Int)), List.Forall₂ R l l' →
      (∀ a ∈ l, ∀ b, R a b → S a b) → List.Forall₂ S l l' := by
  intro l l' h
  induction h with
  | nil => intro _; exact List.Forall₂.nil
  | @cons a b tl tl' hab htl ih =>
    intro hs
    exact List.Forall₂.cons (hs a (List.mem_cons_self _ _) b hab)
      (ih fun x hx y hr => hs x (List.mem_cons_of_mem _ hx) y hr)

theorem forall2_map_fst {R : (Int × Int) → (Int × Int) → Prop}
    (hR : ∀ a b, R a b → a.1 = b.1) :
    ∀ (l l' : List (Int × Int)), List.Forall₂ R l l' →
      l.map (fun en => en.1) = l'.map (fun en => en.1) := by
  intro l l' h
  induction h with
  | nil => rfl
  | @cons a b tl tl' hab htl ih => simp only [List.map_cons, hR a b hab, ih]

theorem forall2_mem_right {R : (Int × Int) → (Int × Int) → Prop} :
    ∀ (l l' : List (Int × Int)), List.Forall₂ R l l' →
      ∀ b ∈ l', ∃ a ∈ l, R a b := by
  intro l l' h
  induction h with
  | nil => intro b hb; cases hb
  | @cons a b tl tl' hab htl ih =>
    intro x hx
    rcases List.mem_cons.mp hx with hx | hx
    · exact ⟨a, List.mem_cons_self _ _, hx ▸ hab⟩
    · obtain ⟨y, hy, hr⟩ := ih x hx
      exact ⟨y, List.mem_cons_of_mem _ hy, hr⟩

theorem lastEntryFor_cons (fd : Int) (a : Int × Int) (l : List (Int × Int)) :
    lastEntryFor fd (a :: l) =
      (lastEntryFor fd l).or (if a.1 = fd then some a else none) := by
  unfold lastEntryFor
  rw [List.reverse_cons, List.find?_append]
  congr 1
  by_cases hh : a.1 = fd
  · simp [List.find?, hh]
  · simp [List.find?, hh]

theorem lastEntryFor_eq_none (fd : Int) (l : List (Int × Int)) :
    lastEntryFor fd l = none ↔ ∀ en ∈ l, en.1 ≠ fd := by
  unfold lastEntryFor
  rw [List.find?_eq_none]
  constructor
  · intro h en hm
    have := h en (List.mem_reverse.mpr hm)
    simpa using this
  · intro h en hm
    have := h en (List.mem_reverse.mp hm)
    simpa using this

theorem lastEntryFor_mem (fd : Int) (l : List (Int × Int)) (en : Int × Int)
    (h : lastEntryFor fd l = some en) : en ∈ l ∧ en.1 = fd := by
  unfold lastEntryFor at h
  refine ⟨List.mem_reverse.mp (List.mem_of_find?_eq_some h), ?_⟩
  have := List.find?_some h
  simpa using this

theorem lastEntryFor_isSome_of_mem (fd : Int) (l : List (Int × Int))
    (h : fd ∈ l.map (fun en => en.1)) : (lastEntryFor fd l).isSome := by
  unfold lastEntryFor
  rw [List.find?_isSome]
  obtain ⟨en, hm, he⟩ := List.mem_map.mp h
  exact ⟨en, List.mem_reverse.mpr hm, by simp [he]⟩

theorem lastEntryFor_forall2 {R : (Int × Int) → (Int × Int) → Prop}
    (hR : ∀ a b, R a b → a.1 = b.1) :
    ∀ (l l' : List (Int × Int)), List.Forall₂ R l l' →
      ∀ fd en, lastEntryFor fd l = some en →
        ∃ en', lastEntryFor fd l' = some en' ∧ R en en' := by
  intro l l' h
  induction h with
  | nil => intro fd en h; simp [lastEntryFor] at h
  | @cons a b tl tl' hab htl ih =>
    intro fd en hlast
    rw [lastEntryFor_cons] at hlast
    cases hc : lastEntryFor fd tl with
    | some e0 =>
      rw [hc] at hlast
      simp only [Option.or_some, Option.some.injEq] at hlast
      subst hlast
      obtain ⟨en', hl', hr⟩ := ih fd e0 hc
      refine ⟨en', ?_, hr⟩
      rw [lastEntryFor_cons, hl', Option.or_some]
    | none =>
      rw [hc, Option.none_or] at hlast
      by_cases ha : a.1 = fd
      · rw [if_pos ha] at hlast
        injection hlast with he
        subst he
        have hkeys := forall2_map_fst hR tl tl' htl
        have hcc := (lastEntryFor_eq_none fd tl).mp hc
        have hnone' : lastEntryFor fd tl' = none := by
          rw [lastEntryFor_eq_none]
          intro en2 hm hfd2
          have hmem : fd ∈ tl'.map (fun x => x.1) := List.mem_map.mpr ⟨en2, hm, hfd2⟩
          rw [← hkeys] at hmem
          obtain ⟨en3, hm3, he3⟩ := List.mem_map.mp hmem
          exact hcc en3 hm3 he3
        refine ⟨b, ?_, hab⟩
        rw [lastEntryFor_cons, hnone', Option.none_or,
          if_pos (by rw [← hR a b hab]; exact ha)]
      · rw [if_neg ha] at hlast
        cases hlast

/-! ## Lemmas: the remap loop -/

theorem protectStep_forall2 (maxfd : Nat) (tgt : Int) :
    ∀ (rest : List (Int × Int)) (t t1 : FdTable) (rest1 : List (Int × Int)),
      protectStep maxfd t tgt rest = .ok (t1, rest1) →
      (∀ en ∈ rest, (fdLookup t en.2).isSome) →
      List.Forall₂ (fun en en' : Int × Int =>
        en.1 = en'.1 ∧ fdLookup t1 en'.2 = fdLookup t en.2 ∧ en'.2 ≠ tgt) rest rest1 := by
  intro rest
  induction rest with
  | nil =>
    intro t t1 rest1 h _
    simp only [protectStep, Except.ok.injEq, Prod.mk.injEq] at h
    obtain ⟨h1, h2⟩ := h
    subst h1; subst h2
    exact List.Forall₂.nil
  | cons hd tl ih =>
    intro t t1 rest1 h hopen
    obtain ⟨toJ, fromJ⟩ := hd
    simp only [protectStep] at h
    split at h
    · rename_i hf
      split at h
      · rename_i tmp v hfr hlk
        split at h
        · exact Except.noConfusion h
        · rename_i tp r hrec
          simp only [Except.ok.injEq, Prod.mk.injEq] at h
          obtain ⟨h1, h2⟩ := h
          subst h1; subst h2
          have hfresh : fdLookup t (tmp : Int) = none := (freshFd_some maxfd t tmp hfr).1
          have htmpne : ((tmp : Int)) ≠ tgt := by
            intro hh
            rw [hh, hlk] at hfresh
            cases hfresh
          have hopen' : ∀ en ∈ tl, (fdLookup (fdSet t (tmp : Int) v) en.2).isSome := by
            intro en hm
            have hop := hopen en (List.mem_cons_of_mem _ hm)
            have hnet : en.2 ≠ (tmp : Int) := by
              intro hh
              rw [hh, hfresh] at hop
              cases hop
            rw [fdLookup_fdSet_ne t _ _ v hnet]
            exact hop
          have hpres := (protectStep_ok maxfd tgt tl (fdSet t (tmp : Int) v) tp r hrec).2.2
          constructor
          · refine ⟨rfl, ?_, htmpne⟩
            have hs : fdLookup (fdSet t (tmp : Int) v) (tmp : Int) = some v :=
              fdLookup_fdSet_self t (tmp : Int) v
            rw [hpres (tmp : Int) (by rw [hs]; rfl), hs, hf, hlk]
          · have htail := ih (fdSet t (tmp : Int) v) tp r hrec hopen'
            refine forall2_imp_mem tl r htail ?_
            intro a ha b hr
            refine ⟨hr.1, ?_, hr.2.2⟩
            rw [hr.2.1]
            have hop := hopen a (List.mem_cons_of_mem _ ha)
            have hnet : a.2 ≠ (tmp : Int) := by
              intro hh
              rw [hh, hfresh] at hop
              cases hop
            rw [fdLookup_fdSet_ne t _ _ v hnet]
      · exact Except.noConfusion h
    · rename_i hf
      split at h
      · exact Except.noConfusion h
      · rename_i tp r hrec
        simp only [Except.ok.injEq, Prod.mk.injEq] at h
        obtain ⟨h1, h2⟩ := h
        subst h1; subst h2
        have hpres := (protectStep_ok maxfd tgt tl t tp r hrec).2.2
        constructor
        · exact ⟨rfl, hpres fromJ (hopen (toJ, fromJ) (List.mem_cons_self _ _)), hf⟩
        · have htail := ih t tp r hrec
            (fun en hm => hopen en (List.mem_cons_of_mem _ hm))
          exact htail

theorem remapLoopF_frame (maxfd : Nat) :
    ∀ (fuel : Nat) (entries : List (Int × Int)) (t t' : FdTable),
      remapLoopF maxfd fuel t entries = .ok t' →
      ∀ f, (fdLookup t f).isSome → (∀ en ∈ entries, en.1 ≠ f) →
        fdLookup t' f = fdLookup t f := by
  intro fuel
  induction fuel with
  | zero =>
    intro entries t t' h f hop hnt
    cases entries with
    | nil =>
      simp only [remapLoopF, Except.ok.injEq] at h
      subst h; rfl
    | cons a tl =>
      simp only [remapLoopF, Except.ok.injEq] at h
      subst h; rfl
  | succ fuel ih =>
    intro entries t t' h f hop hnt
    cases entries with
    | nil =>
      simp only [remapLoopF, Except.ok.injEq] at h
      subst h; rfl
    | cons hd tl =>
      obtain ⟨toI, fromI⟩ := hd
      simp only [remapLoopF] at h
      split at h
      · exact ih tl t t' h f hop (fun en hm => hnt en (List.mem_cons_of_mem _ hm))
      · rename_i hne
        split at h
        · exact Except.noConfusion h
        · rename_i t1 rest1 hp
          split at h
          · exact Except.noConfusion h
          · rename_i v hv
            split at h
            · exact Except.noConfusion h
            · rename_i hbound
              obtain ⟨hk, hl, hpres⟩ := protectStep_ok maxfd toI tl t t1 rest1 hp
              have hfo : fdLookup t1 f = fdLookup t f := hpres f hop
              have hto : toI ≠ f := hnt (toI, fromI) (List.mem_cons_self _ _)
              have h2 : fdLookup (fdSet t1 toI v) f = fdLookup t1 f :=
                fdLookup_fdSet_ne t1 toI f v (fun hh => hto hh.symm)
              have hnt1 : ∀ en ∈ rest1, en.1 ≠ f := by
                intro en hm hh
                have hmm : f ∈ rest1.map (fun x => x.1) := List.mem_map.mpr ⟨en, hm, hh⟩
                rw [hk] at hmm
                obtain ⟨en2, hm2, he2⟩ := List.mem_map.mp hmm
                exact hnt en2 (List.mem_cons_of_mem _ hm2) he2
              rw [ih rest1 (fdSet t1 toI v) t' h f (by rw [h2, hfo]; exact hop) hnt1,
                h2, hfo]

theorem remapLoopF_correct (maxfd : Nat) :
    ∀ (fuel : Nat) (entries : List (Int × Int)) (t t' : FdTable),
      entries.length ≤ fuel →
      remapLoopF maxfd fuel t entries = .ok t' →
      (∀ en ∈ entries, (fdLookup t en.2).isSome) →
      ∀ fd en, lastEntryFor fd entries = some en → fdLookup t' fd = fdLookup t en.2 := by
  intro fuel
  induction fuel with
  | zero =>
    intro entries t t' hle h hopen fd en hlast
    cases entries with
    | nil => simp [lastEntryFor] at hlast
    | cons a tl => simp at hle
  | succ fuel ih =>
    intro entries t t' hle h hopen fd en hlast
    cases entries with
    | nil => simp [lastEntryFor] at hlast
    | cons hd tl =>
      obtain ⟨toI, fromI⟩ := hd
      simp only [remapLoopF] at h
      rw [lastEntryFor_cons] at hlast
      split at h
      · rename_i hskip
        cases hc : lastEntryFor fd tl with
        | some e0 =>
          rw [hc, Option.or_some] at hlast
          injection hlast with he
          subst he
          exact ih tl t t' (by simpa using Nat.le_of_succ_le_succ hle) h
            (fun en2 hm => hopen en2 (List.mem_cons_of_mem _ hm)) fd e0 hc
        | none =>
          rw [hc, Option.none_or] at hlast
          by_cases hfd : toI = fd
          · rw [if_pos (show (toI, fromI).1 = fd from hfd)] at hlast
            injection hlast with he
            subst he
            have hopenf : (fdLookup t fd).isSome := by
              have hop := hopen (toI, fromI) (List.mem_cons_self _ _)
              rw [show ((toI, fromI).2 : Int) = fd from hskip ▸ hfd] at hop
              exact hop
            have hnt : ∀ en2 ∈ tl, en2.1 ≠ fd := (lastEntryFor_eq_none fd tl).mp hc
            rw [remapLoopF_frame maxfd fuel tl t t' h fd hopenf hnt]
            rw [show ((toI, fromI).2 : Int) = fd from hskip ▸ hfd]
          · rw [if_neg (fun hh => hfd hh)] at hlast
            cases hlast
      · rename_i hne
        split at h
        · exact Except.noConfusion h
        · rename_i t1 rest1 hp
          split at h
          · exact Except.noConfusion h
          · rename_i v hv
            split at h
            · exact Except.noConfusion h
            · rename_i hbound
              obtain ⟨hk, hl, hpres⟩ := protectStep_ok maxfd toI tl t t1 rest1 hp
              have hopentl : ∀ en2 ∈ tl, (fdLookup t en2.2).isSome :=
                fun en2 hm => hopen en2 (List.mem_cons_of_mem _ hm)
              have hf2 := protectStep_forall2 maxfd toI tl t t1 rest1 hp hopentl
              have hopf : (fdLookup t fromI).isSome :=
                hopen (toI, fromI) (List.mem_cons_self _ _)
              have hvt : fdLookup t fromI = some v := (hpres fromI hopf).symm.trans hv
              have hopen2 : ∀ en' ∈ rest1, (fdLookup (fdSet t1 toI v) en'.2).isSome := by
                intro en' hm
                obtain ⟨a, ha, hr⟩ := forall2_mem_right tl rest1 hf2 en' hm
                rw [fdLookup_fdSet_ne t1 toI en'.2 v hr.2.2, hr.2.1]
                exact hopen a (List.mem_cons_of_mem _ ha)
              have hlen2 : rest1.length ≤ fuel := by
                rw [hl]
                simpa using Nat.le_of_succ_le_succ hle
              cases hc : lastEntryFor fd tl with
              | some e0 =>
                rw [hc, Option.or_some] at hlast
                injection hlast with he
                subst he
                obtain ⟨e0', hl', hr⟩ :=
                  lastEntryFor_forall2 (fun a b hab => hab.1) tl rest1 hf2 fd e0 hc
                rw [ih rest1 (fdSet t1 toI v) t' hlen2 h hopen2 fd e0' hl',
                  fdLookup_fdSet_ne t1 toI e0'.2 v hr.2.2, hr.2.1]
              | none =>
                rw [hc, Option.none_or] at hlast
                by_cases hfd : toI = fd
                · rw [if_pos (show (toI, fromI).1 = fd from hfd)] at hlast
                  injection hlast with he
                  subst he
                  have hnone1 : lastEntryFor fd rest1 = none := by
                    rw [lastEntryFor_eq_none]
                    intro en2 hm hh
                    have hmm : fd ∈ rest1.map (fun x => x.1) :=
                      List.mem_map.mpr ⟨en2, hm, hh⟩
                    rw [hk] at hmm
                    obtain ⟨en3, hm3, he3⟩ := List.mem_map.mp hmm
                    exact (lastEntryFor_eq_none fd tl).mp hc en3 hm3 he3
                  have hopen3 : (fdLookup (fdSet t1 toI v) fd).isSome := by
                    rw [← hfd, fdLookup_fdSet_self]
                    rfl
                  rw [remapLoopF_frame maxfd fuel rest1 (fdSet t1 toI v) t' h fd hopen3
                    ((lastEntryFor_eq_none fd rest1).mp hnone1), ← hfd,
                    fdLookup_fdSet_self]
                  exact hvt.symm
                · rw [if_neg (fun hh => hfd hh)] at hlast
                  cases hlast

/-! ## Claim C1 -/

/-- C1: after the conflict-avoiding remap loop of `Scm_SysExec` completes
(all entry sources being open descriptors), every target descriptor refers
to the open file that its entry's source referred to before the remap began,
where for a target appearing in several entries the last entry wins
(`dup2` last-write-wins); arbitrary permutation/cycle patterns are covered,
and in particular the swap mapping `[(0,1),(1,0)]` leaves descriptor 0
holding the file originally at descriptor 1 and vice versa (see the
witness), because no entry's source is overwritten before it is consumed. -/
theorem c1_remap_last_write_wins (maxfd : Nat) (t t' : FdTable)
    (entries : List (Int × Int))
    (hopen : ∀ en ∈ entries, (fdLookup t en.2).isSome)
    (hrun : remapLoop maxfd t entries = .ok t') :
    ∀ fd en, lastEntryFor fd entries = some en → fdLookup t' fd = fdLookup t en.2 :=
  remapLoopF_correct maxfd entries.length entries t t' le_rfl hrun hopen

/-- Witness for C1: the swap mapping `[(0,1),(1,0)]` on a table where
descriptor 0 holds file 10 and descriptor 1 holds file 11 ends with
descriptor 0 holding file 11 and descriptor 1 holding file 10. -/
theorem c1_remap_last_write_wins_witness :
    fdLookup [((1 : Int), 10), (0, 11), (2, 10), (0, 10), (1, 11)] 0 = some 11 ∧
    fdLookup [((1 : Int), 10), (0, 11), (2, 10), (0, 10), (1, 11)] 1 = some 10 := by
  have h := c1_remap_last_write_wins 16 [((0 : Int), 10), (1, 11)]
    [((1 : Int), 10), (0, 11), (2, 10), (0, 10), (1, 11)]
    [(0, 1), (1, 0)] (by decide) (by rfl)
  exact ⟨(h 0 (0, 1) (by decide)).trans (by decide),
    (h 1 (1, 0) (by decide)).trans (by decide)⟩

/-! ## Claim C5 -/

theorem closeFold_lookup_none (tg : List Int) (k : Int) :
    ∀ (L : List Nat) (t : FdTable), fdLookup t k = none →
      fdLookup (L.foldl (fun (acc : FdTable) (i : Nat) =>
        if tg.any (fun tf => tf = (i : Int)) then acc else fdClose acc (i : Int)) t) k
        = none := by
  intro L
  induction L with
  | nil => intro t h; exact h
  | cons i tl ih =>
    intro t h
    rw [List.foldl_cons]
    by_cases hi : tg.any (fun tf => tf = (i : Int))
    · rw [if_pos hi]
      exact ih t h
    · rw [if_neg hi]
      refine ih _ ?_
      rw [fdLookup_fdClose]
      split
      · rfl
      · exact h

theorem closeFold_lookup_target (tg : List Int) (k : Int)
    (hk : tg.any (fun tf => tf = k) = true) :
    ∀ (L : List Nat) (t : FdTable),
      fdLookup (L.foldl (fun (acc : FdTable) (i : Nat) =>
        if tg.any (fun tf => tf = (i : Int)) then acc else fdClose acc (i : Int)) t) k
        = fdLookup t k := by
  intro L
  induction L with
  | nil => intro t; rfl
  | cons i tl ih =>
    intro t
    rw [List.foldl_cons]
    by_cases hi : tg.any (fun tf => tf = (i : Int))
    · rw [if_pos hi, ih]
    · rw [if_neg hi, ih]
      have hki : ¬ (k = (i : Int)) := fun hh => hi (hh ▸ hk)
      rw [fdLookup_fdClose, if_neg hki]

theorem closeFold_closes (tg : List Int) (n : Nat)
    (hk : tg.any (fun tf => tf = (n : Int)) = false) :
    ∀ (L : List Nat) (t : FdTable), n ∈ L →
      fdLookup (L.foldl (fun (acc : FdTable) (i : Nat) =>
        if tg.any (fun tf => tf = (i : Int)) then acc else fdClose acc (i : Int)) t) (n : Int)
        = none := by
  intro L
  induction L with
  | nil => intro t h; cases h
  | cons i tl ih =>
    intro t hm
    rw [List.foldl_cons]
    rcases List.mem_cons.mp hm with he | hm2
    · subst he
      rw [if_neg (by simp [hk])]
      refine closeFold_lookup_none tg (n : Int) tl _ ?_
      rw [fdLookup_fdClose, if_pos rfl]
    · by_cases hi : tg.any (fun tf => tf = (i : Int))
      · rw [if_pos hi]
        exact ih t hm2
      · rw [if_neg hi]
        exact ih _ hm2

/-- C5: when a mapping is supplied, after the remap phase the close loop of
`Scm_SysExec` closes every descriptor in `[0, maxfd)` that equals no
mapping entry's target (so the temporary duplicates made for conflict
avoidance never survive to `execvp` unless they became a mapped target),
while every descriptor equal to some entry's target is left untouched by
the close loop and open. -/
theorem c5_close_loop_keeps_only_targets (maxfd : Nat) (t t' : FdTable)
    (entries : List (Int × Int))
    (hopen : ∀ en ∈ entries, (fdLookup t en.2).isSome)
    (hrun : remapLoop maxfd t entries = .ok t') :
    (∀ n : Nat, n < maxfd → (n : Int) ∉ entries.map (fun en => en.1) →
      fdLookup (closeLoop maxfd (entries.map (fun en => en.1)) t') (n : Int) = none) ∧
    (∀ fd, fd ∈ entries.map (fun en => en.1) →
      fdLookup (closeLoop maxfd (entries.map (fun en => en.1)) t') fd = fdLookup t' fd ∧
      (fdLookup t' fd).isSome) := by
  constructor
  · intro n hn hnt
    have hany : (entries.map (fun en => en.1)).any (fun tf => tf = (n : Int)) = false := by
      rw [Bool.eq_false_iff]
      intro hh
      obtain ⟨x, hx, he⟩ := List.any_eq_true.mp hh
      exact hnt (by rwa [of_decide_eq_true he] at hx)
    exact closeFold_closes _ n hany (List.range maxfd) t' (List.mem_range.mpr hn)
  · intro fd hm
    have hany : (entries.map (fun en => en.1)).any (fun tf => tf = fd) = true :=
      List.any_eq_true.mpr ⟨fd, hm, by simp⟩
    constructor
    · simp only [closeLoop]
      exact closeFold_lookup_target _ fd hany (List.range maxfd) t'
    · have hs := lastEntryFor_isSome_of_mem fd entries hm
      obtain ⟨en, hen⟩ := Option.isSome_iff_exists.mp hs
      rw [remapLoopF_correct maxfd entries.length entries t t' le_rfl hrun hopen fd en hen]
      exact hopen en (lastEntryFor_mem fd entries en hen).1

/-- Witness for C5: mapping `[(1,0)]` on a table where descriptor 0 holds
file 10 and descriptor 1 holds file 11, with `maxfd = 4`: after remap and
close loop, descriptor 0 is closed and descriptor 1 holds file 10. -/
theorem c5_close_loop_keeps_only_targets_witness :
    fdLookup (closeLoop 4 [1] [((1 : Int), 10), (0, 10), (1, 11)]) 0 = none ∧
    fdLookup (closeLoop 4 [1] [((1 : Int), 10), (0, 10), (1, 11)]) 1 = some 10 := by
  have h := c5_close_loop_keeps_only_targets 4 [((0 : Int), 10), (1, 11)]
    [((1 : Int), 10), (0, 10), (1, 11)] [(1, 0)] (by decide) (by rfl)
  refine ⟨?_, ?_⟩
  · exact h.1 0 (by decide) (by decide)
  · have h2 := h.2 1 (by decide)
    exact h2.1.trans (by decide)

/-! ## Claim C4 -/

/-- C4 counterexample: a negative mapping target is not validated.  With the
iomap `((5 . 3) (-1 . 0))` on a table with descriptors 0-3 open,
`Scm_SysExec` raises no recoverable error: validation passes, the first
entry's `dup2` is applied (mutating the table), and then `dup2(0, -1)`
fails, producing a fatal `Scm_Panic` with the table already changed —
against the claim that a negative target raises a recoverable error while
the descriptor table is still completely unchanged. -/
theorem c4_negative_target_counterexample :
    Scm_SysExec 16 [((0 : Int), 20), (1, 21), (2, 22), (3, 23)] [.str]
        (.list [.pair (.int 5) (.int 3), .pair (.int (-1)) (.int 0)] false)
      = .fatal [((5 : Int), 23), (0, 20), (1, 21), (2, 22), (3, 23)] ∧
    ([((5 : Int), 23), (0, 20), (1, 21), (2, 22), (3, 23)] : FdTable)
      ≠ [((0 : Int), 20), (1, 21), (2, 22), (3, 23)] := by
  exact ⟨by decide, by decide⟩

/-- C4 amended: `Scm_SysExec` performs its recoverable validation (argument
list of length at least one, string arguments, proper iomap list, entry
shape, port descriptor association, directionality for targets 0/1/2)
before any `dup`/`dup2`/`close`, so every recoverable error leaves the
descriptor table exactly as it was; mapping targets, however, are not
checked for sign — a negative target passes validation and surfaces only
as a fatal failure during the remap phase (see the counterexample). -/
theorem c4_validation_before_mutation (maxfd : Nat) (t : FdTable)
    (args : List ArgVal) (entries : List IoEntry) (improper : Bool) :
    (∀ iomap, args.length < 1 → Scm_SysExec maxfd t args iomap = .argError t) ∧
    (∀ iomap a, a ∈ args → a.isStr = false →
      Scm_SysExec maxfd t args iomap = .argError t) ∧
    (1 ≤ args.length → (∀ a ∈ args, a.isStr = true) → improper = true →
      Scm_SysExec maxfd t args (.list entries improper) = .argError t) ∧
    (1 ≤ args.length → (∀ a ∈ args, a.isStr = true) → improper = false →
      validateIomap entries = .error () →
      Scm_SysExec maxfd t args (.list entries improper) = .argError t) ∧
    (∀ iomap t2, Scm_SysExec maxfd t args iomap = .argError t2 → t2 = t) := by
  have hstrCase : ∀ (hstr : ∀ a ∈ args, a.isStr = true),
      args.any (fun x => x.isStr = false) = false := by
    intro hstr
    rw [Bool.eq_false_iff]
    intro hh
    obtain ⟨x, hx, hp⟩ := List.any_eq_true.mp hh
    have := hstr x hx
    simp [this] at hp
  refine ⟨?_, ?_, ?_, ?_, ?_⟩
  · intro iomap h
    simp only [Scm_SysExec, if_pos h]
  · intro iomap a ha hf
    by_cases hl : args.length < 1
    · simp only [Scm_SysExec, if_pos hl]
    · have hany : args.any (fun x => x.isStr = false) = true :=
        List.any_eq_true.mpr ⟨a, ha, by simp [hf]⟩
      simp only [Scm_SysExec, if_neg hl, hany]
      simp
  · intro h1 hstr himp
    have hl : ¬ args.length < 1 := by omega
    simp only [Scm_SysExec, if_neg hl, hstrCase hstr, himp]
    simp
  · intro h1 hstr himp hval
    have hl : ¬ args.length < 1 := by omega
    simp only [Scm_SysExec, if_neg hl, hstrCase hstr, himp, hval]
    simp
  · intro iomap t2 h
    cases iomap with
    | notPair =>
      simp only [Scm_SysExec] at h
      by_cases h1 : args.length < 1
      · rw [if_pos h1] at h
        injection h with hh
        exact hh.symm
      · rw [if_neg h1] at h
        by_cases h2 : args.any (fun a => a.isStr = false) = true
        · simp only [h2, if_true] at h
          injection h with hh
          exact hh.symm
        · rw [if_neg h2] at h
          exact ExecOutcome.noConfusion h
    | list ents improper2 =>
      simp only [Scm_SysExec] at h
      by_cases h1 : args.length < 1
      · rw [if_pos h1] at h
        injection h with hh
        exact hh.symm
      · rw [if_neg h1] at h
        by_cases h2 : args.any (fun a => a.isStr = false) = true
        · simp only [h2, if_true] at h
          injection h with hh
          exact hh.symm
        · rw [if_neg h2] at h
          split at h
          · injection h with hh
            exact hh.symm
          · split at h
            · injection h with hh
              exact hh.symm
            · split at h
              · exact ExecOutcome.noConfusion h
              · exact ExecOutcome.noConfusion h

/-- Witness for C4 amended: an empty argument list and a malformed iomap
entry each produce a recoverable error with the descriptor table unchanged. -/
theorem c4_validation_before_mutation_witness :
    Scm_SysExec 16 [((0 : Int), 20)] [] .notPair = .argError [((0 : Int), 20)] ∧
    Scm_SysExec 16 [((0 : Int), 20)] [.str] (.list [.notPair] false)
      = .argError [((0 : Int), 20)] := by
  refine ⟨(c4_validation_before_mutation 16 [((0 : Int), 20)] [] [] false).1
    .notPair (by decide), ?_⟩
  exact (c4_validation_before_mutation 16 [((0 : Int), 20)] [.str] [.notPair] false).2.2.2.1
    (by decide) (by decide) rfl rfl

/-! ## Claim C8 -/

/-- C8 counterexample: the three-element list `(1 2 3)` matches none of the
accepted timeout encodings (exact/bignum/flonum microseconds or a
two-element seconds/microseconds list), yet `select_timeval` accepts it,
decoding its first two elements and ignoring the rest, instead of
rejecting it as malformed. -/
theorem c8_extra_list_elements_counterexample :
    select_timeval (.listVal [.int 1, .int 2, .int 3]) = .ok (some (1, 2)) ∧
    [ScmNum.int 1, .int 2, .int 3].length ≠ 2 :=
  ⟨rfl, by decide⟩

/-- C8 amended: a negative component in any accepted timeout encoding makes
`select_timeval` raise the `badtv` validation error, and because the
timeout is decoded inside the argument list of the `select` call,
`select_int` then returns that error without consulting the OS (the result
holds for every OS oracle); a non-number non-list timeout is rejected the
same way, and a list is accepted exactly when its first two elements are
nonnegative integers — extra elements are ignored rather than rejected. -/
theorem c8_negative_timeout_rejected_before_select (timeout : Timeout) :
    (timeout.hasNegative → select_timeval timeout = .error .badTimeout) ∧
    (∀ er, select_timeval timeout = .error er →
      ∀ (os : OsSelect) (st : FdsetStore) (r w e : Option Nat),
        select_int os st r w e timeout = .error er) ∧
    (select_timeval .otherVal = .error .badTimeout) ∧
    (∀ elems tm, select_timeval (.listVal elems) = .ok tm →
      ∃ a b rest, elems = .int a :: .int b :: rest ∧ 0 ≤ a ∧ 0 ≤ b ∧
        tm = some (a, b)) := by
  refine ⟨?_, ?_, rfl, ?_⟩
  · intro hneg
    match timeout, hneg with
    | .fixnum n, hneg =>
      simp only [select_timeval]
      rw [if_pos (show n < 0 from hneg)]
    | .bignum n, hneg =>
      simp only [select_timeval]
      rw [if_pos (show n < 0 from hneg)]
    | .flonum n, hneg =>
      simp only [select_timeval]
      rw [if_pos (show n < 0 from hneg)]
    | .listVal (.int a :: .int b :: rest), hneg =>
      simp only [select_timeval]
      rw [if_pos (show a < 0 ∨ b < 0 from hneg)]
    | .falseVal, hneg => exact hneg.elim
    | .otherVal, hneg => exact hneg.elim
    | .listVal [], hneg => exact hneg.elim
    | .listVal (.nonInt :: rest), hneg => exact hneg.elim
    | .listVal [.int a], hneg => exact hneg.elim
    | .listVal (.int a :: .nonInt :: rest), hneg => exact hneg.elim
  · intro er h os st r w e
    simp only [select_int]
    rw [h]
  · intro elems tm h
    match elems, h with
    | [], h => exact Except.noConfusion h
    | [.int a], h => exact Except.noConfusion h
    | [.nonInt], h => exact Except.noConfusion h
    | .nonInt :: b :: rest, h => exact Except.noConfusion h
    | .int a :: .nonInt :: rest, h => exact Except.noConfusion h
    | .int a :: .int b :: rest, h =>
      simp only [select_timeval] at h
      by_cases hab : a < 0 ∨ b < 0
      · rw [if_pos hab] at h
        exact Except.noConfusion h
      · rw [if_neg hab] at h
        injection h with hh
        exact ⟨a, b, rest, rfl, by omega, by omega, hh.symm⟩

/-- Witness for C8 amended: `-5` microseconds is rejected by
`select_timeval`, and `select_int` surfaces the same validation error for a
concrete oracle and store without consulting them. -/
theorem c8_negative_timeout_rejected_before_select_witness :
    select_timeval (.fixnum (-5)) = .error .badTimeout ∧
    select_int (fun _ _ _ _ _ => (0, [], [], [])) ⟨0, []⟩ none none none (.fixnum (-5))
      = .error .badTimeout := by
  have h := c8_negative_timeout_rejected_before_select (.fixnum (-5))
  have h1 := h.1 (by norm_num [Timeout.hasNegative])
  exact ⟨h1, h.2.1 .badTimeout h1 (fun _ _ _ _ _ => (0, [], [], [])) ⟨0, []⟩ none none none⟩

/-! ## Claim C9 -/

theorem storeGet_storeSet_self (st : FdsetStore) (r : Nat) (v : SysFdset) :
    storeGet (storeSet st r v) r = some v := by
  simp [storeGet, storeSet, List.find?]

theorem storeGet_storeSet_ne (st : FdsetStore) (r r' : Nat) (v : SysFdset) (h : r' ≠ r) :
    storeGet (storeSet st r v) r' = storeGet st r' := by
  simp [storeGet, storeSet, List.find?, Ne.symm h]

theorem storeGet_isSome_lt (st : FdsetStore) (hwf : StoreWF st) (i : Nat)
    (h : (storeGet st i).isSome) : i < st.nextRef := by
  unfold storeGet at h
  cases hf : st.refs.find? (fun en => en.1 = i) with
  | none => rw [hf] at h; cases h
  | some en =>
    have hm := List.mem_of_find?_eq_some hf
    have he : en.1 = i := by simpa using List.find?_some hf
    exact he ▸ hwf en hm

theorem storeGet_alloc (st : FdsetStore) (v : SysFdset) (i : Nat) :
    storeGet (storeAlloc st v).2 i =
      if st.nextRef = i then some v else storeGet st i := by
  by_cases hi : st.nextRef = i <;> simp [storeGet, storeAlloc, List.find?, hi]

theorem storeGet_alloc_lt (st : FdsetStore) (v : SysFdset) (i : Nat)
    (h : i < st.nextRef) :
    storeGet (storeAlloc st v).2 i = storeGet st i := by
  rw [storeGet_alloc, if_neg (by omega)]

theorem storeAlloc_wf (st : FdsetStore) (v : SysFdset) (hwf : StoreWF st) :
    StoreWF (storeAlloc st v).2 := by
  intro en hm
  simp only [storeAlloc] at hm ⊢
  rcases List.mem_cons.mp hm with he | hm2
  · subst he
    simp
  · have := hwf en hm2
    omega

theorem copyArg_spec (st : FdsetStore) (r : Option Nat)
    (hr : ∀ i, r = some i → (storeGet st i).isSome) :
    st.nextRef ≤ (copyArg st r).2.nextRef ∧
    (∀ i, i < st.nextRef → storeGet (copyArg st r).2 i = storeGet st i) ∧
    (∀ j, (copyArg st r).1 = some j → st.nextRef ≤ j) ∧
    (StoreWF st → StoreWF (copyArg st r).2) ∧
    (r = none → (copyArg st r).1 = none) ∧
    (∀ i, r = some i → (storeGet (copyArg st r).2 i).isSome) := by
  cases r with
  | none =>
    refine ⟨le_rfl, fun i _ => rfl, ?_, fun h => h, fun _ => rfl, ?_⟩
    · intro j h
      exact Option.noConfusion h
    · intro i h
      exact Option.noConfusion h
  | some i =>
    obtain ⟨v, hv⟩ := Option.isSome_iff_exists.mp (hr i rfl)
    have hc : copyArg st (some i) = (some st.nextRef, (storeAlloc st (fdset_copy v)).2) := by
      simp [copyArg, hv, storeAlloc]
    rw [hc]
    refine ⟨by simp [storeAlloc], ?_, ?_, ?_, ?_, ?_⟩
    · intro i0 h0
      exact storeGet_alloc_lt st (fdset_copy v) i0 h0
    · intro j hj
      injection hj with hj
      omega
    · intro hwf
      exact storeAlloc_wf st (fdset_copy v) hwf
    · intro hh
      exact Option.noConfusion hh
    · intro i0 h0
      injection h0 with h0
      subst h0
      rw [storeGet_alloc]
      split
      · rfl
      · rw [hv]
        rfl

theorem storeGet_writeReady_ne (st : FdsetStore) (r : Option Nat) (mem : List Nat)
    (i : Nat) (h : ∀ j, r = some j → j ≠ i) :
    storeGet (writeReady st r mem) i = storeGet st i := by
  cases r with
  | none => rfl
  | some j =>
    simp only [writeReady]
    cases hg : storeGet st j with
    | none => rfl
    | some v => exact storeGet_storeSet_ne st j i _ (fun hh => h j rfl (hh.symm ▸ rfl))

theorem select_int_ok (os : OsSelect) (st : FdsetStore) (r w e : Option Nat)
    (timeout : Timeout) (res : FdsetStore × Int × Option Nat × Option Nat × Option Nat)
    (h : select_int os st r w e timeout = .ok res) :
    res.2.2.1 = r ∧ res.2.2.2.1 = w ∧ res.2.2.2.2 = e ∧
    (∀ i, (∀ j, r = some j → j ≠ i) → (∀ j, w = some j → j ≠ i) →
      (∀ j, e = some j → j ≠ i) → storeGet res.1 i = storeGet st i) := by
  simp only [select_int] at h
  split at h
  · exact Except.noConfusion h
  · rename_i tm htm
    split at h
    · exact Except.noConfusion h
    · injection h with hh
      subst hh
      refine ⟨rfl, rfl, rfl, ?_⟩
      intro i hri hwi hei
      rw [storeGet_writeReady_ne _ e _ i hei, storeGet_writeReady_ne _ w _ i hwi,
        storeGet_writeReady_ne _ r _ i hri]

/-- C9: `Scm_SysSelect` (non-destructive) operates on freshly allocated
copies of the present descriptor sets: after a successful call every
caller-supplied set object still holds exactly the value (membership and
cached `maxfd`) it held before the call, and absent sets are returned as
absent; `Scm_SysSelectX` (destructive) instead overwrites the caller's set
objects in place with the post-wait ready membership reported by the OS
(the cached `maxfd` field of each object is kept). -/
theorem c9_select_copies_vs_in_place
    (os : OsSelect) (st : FdsetStore) (r w e : Option Nat) (timeout : Timeout)
    (hwf : StoreWF st)
    (hr : ∀ i, r = some i → (storeGet st i).isSome)
    (hw : ∀ i, w = some i → (storeGet st i).isSome)
    (he : ∀ i, e = some i → (storeGet st i).isSome) :
    (∀ res, Scm_SysSelect os st r w e timeout = .ok res →
      (∀ i, r = some i ∨ w = some i ∨ e = some i →
        storeGet res.1 i = storeGet st i) ∧
      (r = none → res.2.2.1 = none) ∧
      (w = none → res.2.2.2.1 = none) ∧
      (e = none → res.2.2.2.2 = none)) ∧
    (∀ ri wi ei rv wv ev tmv n rm wm em,
      r = some ri → w = some wi → e = some ei →
      storeGet st ri = some rv → storeGet st wi = some wv → storeGet st ei = some ev →
      ri ≠ wi → ri ≠ ei → wi ≠ ei →
      select_timeval timeout = .ok tmv →
      os (selMaxfds (some rv) (some wv) (some ev) + 1) (some rv) (some wv) (some ev) tmv
        = (n, rm, wm, em) →
      0 ≤ n →
      ∃ st2, Scm_SysSelectX os st r w e timeout = .ok (st2, n, r, w, e) ∧
        storeGet st2 ri = some ⟨rv.maxfd, rm⟩ ∧
        storeGet st2 wi = some ⟨wv.maxfd, wm⟩ ∧
        storeGet st2 ei = some ⟨ev.maxfd, em⟩) := by
  constructor
  · intro res hres
    obtain ⟨hle1, hget1, hfresh1, hwf1, hnone1, hsome1⟩ := copyArg_spec st r hr
    have hw2 : ∀ i, w = some i → (storeGet (copyArg st r).2 i).isSome := by
      intro i hi
      have hop := hw i hi
      rw [hget1 i (storeGet_isSome_lt st hwf i hop)]
      exact hop
    obtain ⟨hle2, hget2, hfresh2, hwf2, hnone2, hsome2⟩ :=
      copyArg_spec (copyArg st r).2 w hw2
    have he3 : ∀ i, e = some i →
        (storeGet (copyArg (copyArg st r).2 w).2 i).isSome := by
      intro i hi
      have hop := he i hi
      have hlt : i < st.nextRef := storeGet_isSome_lt st hwf i hop
      rw [hget2 i (by omega), hget1 i hlt]
      exact hop
    obtain ⟨hle3, hget3, hfresh3, hwf3, hnone3, hsome3⟩ :=
      copyArg_spec (copyArg (copyArg st r).2 w).2 e he3
    have hres2 : select_int os (copyArg (copyArg (copyArg st r).2 w).2 e).2
        (copyArg st r).1 (copyArg (copyArg st r).2 w).1
        (copyArg (copyArg (copyArg st r).2 w).2 e).1 timeout = .ok res := hres
    obtain ⟨hrr, hww, hee, hframe⟩ := select_int_ok os _ _ _ _ timeout res hres2
    refine ⟨?_, ?_, ?_, ?_⟩
    · intro i hi
      have hlt : i < st.nextRef := by
        rcases hi with hi | hi | hi
        · exact storeGet_isSome_lt st hwf i (hr i hi)
        · exact storeGet_isSome_lt st hwf i (hw i hi)
        · exact storeGet_isSome_lt st hwf i (he i hi)
      have hc1 : ∀ j, (copyArg st r).1 = some j → j ≠ i := by
        intro j hj
        have := hfresh1 j hj
        omega
      have hc2 : ∀ j, (copyArg (copyArg st r).2 w).1 = some j → j ≠ i := by
        intro j hj
        have := hfresh2 j hj
        omega
      have hc3 : ∀ j, (copyArg (copyArg (copyArg st r).2 w).2 e).1 = some j → j ≠ i := by
        intro j hj
        have := hfresh3 j hj
        omega
      rw [hframe i hc1 hc2 hc3, hget3 i (by omega), hget2 i (by omega), hget1 i hlt]
    · intro hrn
      rw [hrr]
      exact hnone1 hrn
    · intro hwn
      rw [hww]
      exact hnone2 hwn
    · intro hen
      rw [hee]
      exact hnone3 hen
  · intro ri wi ei rv wv ev tmv n rm wm em hr1 hw1 he1 hgr hgw hge hrw hre hwe htm hos hn
    subst hr1
    subst hw1
    subst he1
    have hnlt : ¬ n < 0 := by omega
    have hg1w : storeGet (storeSet st ri ⟨rv.maxfd, rm⟩) wi = some wv := by
      rw [storeGet_storeSet_ne st ri wi _ (Ne.symm hrw)]
      exact hgw
    have hg2e : storeGet (storeSet (storeSet st ri ⟨rv.maxfd, rm⟩) wi ⟨wv.maxfd, wm⟩) ei
        = some ev := by
      rw [storeGet_storeSet_ne _ wi ei _ (Ne.symm hwe),
        storeGet_storeSet_ne st ri ei _ (Ne.symm hre)]
      exact hge
    refine ⟨storeSet (storeSet (storeSet st ri ⟨rv.maxfd, rm⟩) wi ⟨wv.maxfd, wm⟩)
      ei ⟨ev.maxfd, em⟩, ?_, ?_, ?_, ?_⟩
    · show select_int os st (some ri) (some wi) (some ei) timeout = _
      simp only [select_int, Option.some_bind, hgr, hgw, hge, htm, hos, hnlt, if_false,
        writeReady, hg1w, hg2e]
    · rw [storeGet_storeSet_ne _ ei ri _ hre, storeGet_storeSet_ne _ wi ri _ hrw,
        storeGet_storeSet_self]
    · rw [storeGet_storeSet_ne _ ei wi _ hwe, storeGet_storeSet_self]
    · rw [storeGet_storeSet_self]

/-- Witness for C9: a concrete destructive call with all three sets present
overwrites the three caller objects with the ready membership reported by
the oracle, keeping their cached maxfd fields. -/
theorem c9_select_copies_vs_in_place_witness :
    ∃ st2, Scm_SysSelectX (fun _ _ _ _ _ => (1, [5], [], []))
        ⟨3, [(0, ⟨5, [3, 5]⟩), (1, ⟨3, [3]⟩), (2, ⟨7, [7]⟩)]⟩
        (some 0) (some 1) (some 2) .falseVal
      = .ok (st2, 1, some 0, some 1, some 2) ∧
      storeGet st2 0 = some ⟨5, [5]⟩ ∧
      storeGet st2 1 = some ⟨3, []⟩ ∧
      storeGet st2 2 = some ⟨7, []⟩ := by
  exact (c9_select_copies_vs_in_place (fun _ _ _ _ _ => (1, [5], [], []))
      ⟨3, [(0, ⟨5, [3, 5]⟩), (1, ⟨3, [3]⟩), (2, ⟨7, [7]⟩)]⟩
      (some 0) (some 1) (some 2) .falseVal
      (by intro en hm; fin_cases hm <;> decide)
      (by intro i h; injection h with h; subst h; decide)
      (by intro i h; injection h with h; subst h; decide)
      (by intro i h; injection h with h; subst h; decide)).2
    0 1 2 ⟨5, [3, 5]⟩ ⟨3, [3]⟩ ⟨7, [7]⟩ none 1 [5] [] []
    rfl rfl rfl rfl rfl rfl (by decide) (by decide) (by decide) rfl rfl (by decide)

/-! ## Claim C3 -/

/-- C3 (code bug): canonicalization is not idempotent.  The `..` handler
advances the source pointer by exactly three bytes (`srcp += 3`, system.c
line 241) with no `SKIP_SLASH` afterwards, unlike every other consumption
site in the scan, so on `"a/b/..//c"` the second slash of the run survives
into the output: the result is `"a//c"`, and canonicalizing again collapses
the run and yields `"a/c"` — a different string. -/
theorem c3_canonicalize_not_idempotent :
    canonPath "a/b/..//c".toList = "a//c".toList ∧
    canonPath (canonPath "a/b/..//c".toList) = "a/c".toList ∧
    canonPath (canonPath "a/b/..//c".toList) ≠ canonPath "a/b/..//c".toList :=
  ⟨by decide, by decide, by decide⟩

/-! ## Claim C10 -/

/-- C10 (code bug): the canonicalize branch allocates `size+1` bytes
(system.c line 197) and thus assumes the output plus its terminating NUL
fit in `size+1` bytes, but for the input `".."` the below-root case emits
the three bytes `"../"` plus the NUL — four bytes into the three-byte
buffer.  The canonical output is longer than the input, refuting the
claimed bound. -/
theorem c10_canonical_output_can_exceed_input :
    canonPath "..".toList = "../".toList ∧
    "..".toList.length + 1 < (canonPath "..".toList).length + 1 :=
  ⟨by decide, by decide⟩

/-! ## Claim C2 -/

/-- C2 counterexample: for `"a/../c"` a previously emitted segment (`"a"`)
exists, yet `..` does not remove it: the back-up scan starts at `dstp-2`
and looks for an earlier `/`; a first relative segment has none in front
of it, so the below-root case fires, the literal `"../"` is emitted, and
the result is `"a/../c"` — not the `"c"` that backing up over `"a"` would
produce. -/
theorem c2_dotdot_backup_counterexample :
    canonPath "a/../c".toList = "a/../c".toList ∧
    canonPath "a/../c".toList ≠ "c".toList :=
  ⟨by decide, by decide⟩

theorem dropWhile_ne_slash (Q : List Char) :
    ∀ (L : List Char), (∀ c ∈ L, c ≠ '/') →
      (L ++ '/' :: Q).dropWhile (fun c => c ≠ '/') = '/' :: Q := by
  intro L
  induction L with
  | nil =>
    intro _
    simp [List.dropWhile]
  | cons c tl ih =>
    intro h
    have hc : c ≠ '/' := h c (List.mem_cons_self _ _)
    simp only [List.cons_append, List.dropWhile_cons]
    rw [if_pos (by simpa using hc)]
    exact ih (fun x hx => h x (List.mem_cons_of_mem _ hx))

theorem dropWhile_ne_slash_nil :
    ∀ (L : List Char), (∀ c ∈ L, c ≠ '/') →
      L.dropWhile (fun c => c ≠ '/') = [] := by
  intro L
  induction L with
  | nil => intro _; rfl
  | cons c tl ih =>
    intro h
    have hc : c ≠ '/' := h c (List.mem_cons_self _ _)
    simp only [List.dropWhile_cons]
    rw [if_pos (by simpa using hc)]
    exact ih (fun x hx => h x (List.mem_cons_of_mem _ hx))

theorem canon_backup_step (fuel : Nat) (S Q rest : List Char) (hS : '/' ∉ S) :
    canonLoop (fuel + 1) ('.' :: '.' :: '/' :: rest) ('/' :: (S.reverse ++ '/' :: Q)) false
      = canonLoop fuel rest ('/' :: Q) false := by
  have hdrop : (S.reverse ++ '/' :: Q).dropWhile (fun c => c ≠ '/') = '/' :: Q :=
    dropWhile_ne_slash Q S.reverse
      (fun c hc he => hS (he ▸ List.mem_reverse.mp hc))
  have hb : backUp ('/' :: (S.reverse ++ '/' :: Q)) = some ('/' :: Q) := by
    simp only [backUp, hdrop]
  simp [canonLoop, hb]

theorem canon_backup_bottom (fuel : Nat) (rest A : List Char)
    (hA : ∀ c ∈ A.drop 1, c ≠ '/') :
    canonLoop (fuel + 1) ('.' :: '.' :: '/' :: rest) A false
      = canonLoop fuel rest ('/' :: '.' :: '.' :: A) true := by
  have hb : backUp A = none := by
    cases A with
    | nil => rfl
    | cons c tl =>
      have hdrop : tl.dropWhile (fun c => c ≠ '/') = [] :=
        dropWhile_ne_slash_nil tl (fun x hx => hA x (by simpa using hx))
      simp only [backUp, hdrop]
  simp [canonLoop, hb]

theorem canon_bottom_blocks_backup (fuel : Nat) (rest acc : List Char) :
    canonLoop (fuel + 1) ('.' :: '.' :: '/' :: rest) acc true
      = canonLoop fuel (skipSlash rest) ('/' :: '.' :: '.' :: acc) true := by
  simp [canonLoop, copySeg]

/-- C2 amended: a `..` segment removes the previously emitted segment only
when the already-emitted output contains a `/` strictly before its last
character (the back-up truncates at that earlier `/`); when it does not —
output empty, at the root, or holding a single first relative segment —
the literal `"../"` is emitted and the below-root flag is set, after which
every further `..` segment is copied literally instead of backed up.  In
particular `resolve("/a/b/../c") = "/a/c"` and
`resolve("../../x") = "../../x"`. -/
theorem c2_dotdot_backup_rule :
    (∀ (fuel : Nat) (S Q rest : List Char), '/' ∉ S →
      canonLoop (fuel + 1) ('.' :: '.' :: '/' :: rest)
          ('/' :: (S.reverse ++ '/' :: Q)) false
        = canonLoop fuel rest ('/' :: Q) false) ∧
    (∀ (fuel : Nat) (rest A : List Char), (∀ c ∈ A.drop 1, c ≠ '/') →
      canonLoop (fuel + 1) ('.' :: '.' :: '/' :: rest) A false
        = canonLoop fuel rest ('/' :: '.' :: '.' :: A) true) ∧
    (∀ (fuel : Nat) (rest acc : List Char),
      canonLoop (fuel + 1) ('.' :: '.' :: '/' :: rest) acc true
        = canonLoop fuel (skipSlash rest) ('/' :: '.' :: '.' :: acc) true) ∧
    canonPath "/a/b/../c".toList = "/a/c".toList ∧
    canonPath "../../x".toList = "../../x".toList :=
  ⟨canon_backup_step, canon_backup_bottom, canon_bottom_blocks_backup,
    by decide, by decide⟩

/-- Witness for C2 amended: concrete instances of the three `..` step rules
(back-up over `"b"` in output `"a/b/"`; below-root on output `"a/"`;
literal copy once below root). -/
theorem c2_dotdot_backup_rule_witness :
    canonLoop 2 ['.', '.', '/', 'c'] ['/', 'b', '/', 'a'] false
      = canonLoop 1 ['c'] ['/', 'a'] false ∧
    canonLoop 2 ['.', '.', '/', 'c'] ['/', 'a'] false
      = canonLoop 1 ['c'] ['/', '.', '.', '/', 'a'] true ∧
    canonLoop 2 ['.', '.', '/', 'c'] ['/', 'a'] true
      = canonLoop 1 ['c'] ['/', '.', '.', '/', 'a'] true := by
  refine ⟨?_, ?_, c2_dotdot_backup_rule.2.2.1 1 ['c'] ['/', 'a']⟩
  · exact c2_dotdot_backup_rule.1 1 ['b'] ['a'] ['c'] (by decide)
  · exact c2_dotdot_backup_rule.2.1 1 ['c'] ['/', 'a'] (by decide)

/-! ## Claim C6 -/

/-- C6 counterexample: `resolve("~", expand_tilde)` does not return the
invoking user's home directory exactly: the separator `/` is appended
(the code checks only whether the home directory already ends in `/`,
not whether a remainder follows), so with home `/home/u` the result is
`"/home/u/"`. -/
theorem c6_tilde_counterexample :
    Scm_NormalizePathname ⟨some "/home/u".toList, fun _ => none, none⟩
        ⟨true, false, false⟩ "~".toList = .ok "/home/u/".toList ∧
    "/home/u/".toList ≠ "/home/u".toList :=
  ⟨by rfl, by decide⟩

/-- C6 amended: with tilde expansion requested (and canonicalization off),
on a path starting with `~` the `~user` token is replaced by the looked-up
home directory, a single `/` separator is appended whenever the home
directory does not already end in one — even when nothing follows — and
the remainder of the path after the token and any further leading `/`
characters is appended unchanged.  Hence `resolve("~")` is the home
directory plus a trailing separator, not the home directory exactly. -/
theorem c6_tilde_expansion (env : PathEnv) (flags : PathFlags) (str home : List Char)
    (hex : flags.expand = true) (hcan : flags.canonicalize = false)
    (h1 : str.head? = some '~')
    (hhome : tildeHome env ((str.drop 1).takeWhile (fun c => c ≠ '/' ∧ c ≠ nulChar))
      = .ok home) :
    Scm_NormalizePathname env flags str =
      .ok (home ++ (if home.getLast? = some '/' then [] else ['/']) ++
        skipSlash (str.drop
          (1 + ((str.drop 1).takeWhile (fun c => c ≠ '/' ∧ c ≠ nulChar)).length))) := by
  simp only [Scm_NormalizePathname]
  rw [if_pos ⟨hex, h1⟩]
  simp only [hhome, hcan, dirSep, Bool.false_eq_true, if_false, List.append_assoc]

/-- Witness for C6 amended at `"~"` with home `/home/u`. -/
theorem c6_tilde_expansion_witness :
    Scm_NormalizePathname ⟨some "/home/u".toList, fun _ => none, none⟩
        ⟨true, false, false⟩ "~".toList = .ok "/home/u/".toList := by
  have h := c6_tilde_expansion ⟨some "/home/u".toList, fun _ => none, none⟩
    ⟨true, false, false⟩ "~".toList "/home/u".toList rfl rfl rfl rfl
  exact h.trans (by rfl)

/-! ## Claim C7 -/

/-- C7 counterexample: with both `expand` and `canonicalize` set on
`"~/a/../b"` (home `/h`), the result `"/h/b"` shows tilde expansion and
canonicalization both applied in one call: it differs from the
expand-only result `"/h/a/../b"`, from the canonicalize-only result
`"~/b"`, and from the unchanged input — so more than one of the three
behaviors fired, against the claimed mutual exclusion. -/
theorem c7_exclusivity_counterexample :
    Scm_NormalizePathname ⟨some "/h".toList, fun _ => none, none⟩
        ⟨true, false, true⟩ "~/a/../b".toList = .ok "/h/b".toList ∧
    Scm_NormalizePathname ⟨some "/h".toList, fun _ => none, none⟩
        ⟨true, false, false⟩ "~/a/../b".toList = .ok "/h/a/../b".toList ∧
    Scm_NormalizePathname ⟨some "/h".toList, fun _ => none, none⟩
        ⟨false, false, true⟩ "~/a/../b".toList = .ok "~/b".toList ∧
    "/h/b".toList ≠ "/h/a/../b".toList ∧
    "/h/b".toList ≠ "~/b".toList ∧
    "/h/b".toList ≠ "~/a/../b".toList :=
  ⟨by rfl, by rfl, by rfl, by decide, by decide, by decide⟩

/-- C7 amended: the three branch heads are mutually exclusive — applicable
tilde expansion pre-empts cwd prefixing, and when no requested option is
applicable the input is returned unchanged — but canonicalization is not
exclusive with the other two: when its flag is set the canonicalization
scan additionally processes the remainder after the tilde or cwd prefix
(see the counterexample); pure canonicalization is the behavior only when
neither prefix branch applies. -/
theorem c7_branch_structure (env : PathEnv) (flags : PathFlags) (str : List Char) :
    (¬ (flags.expand = true ∧ str.head? = some '~') →
      ¬ (flags.absolute = true ∧ str.head? ≠ some '/') →
      flags.canonicalize = false →
      Scm_NormalizePathname env flags str = .ok str) ∧
    (flags.expand = true → str.head? = some '~' →
      Scm_NormalizePathname env flags str =
        Scm_NormalizePathname env ⟨true, false, flags.canonicalize⟩ str) ∧
    (¬ (flags.expand = true ∧ str.head? = some '~') →
      ¬ (flags.absolute = true ∧ str.head? ≠ some '/') →
      flags.canonicalize = true →
      Scm_NormalizePathname env flags str = .ok (canonPath str)) := by
  refine ⟨?_, ?_, ?_⟩
  · intro h1 h2 h3
    simp only [Scm_NormalizePathname]
    rw [if_neg h1, if_neg h2, if_neg (by simp [h3])]
  · intro hex h1
    simp only [Scm_NormalizePathname]
    rw [if_pos ⟨hex, h1⟩, if_pos ⟨by trivial, h1⟩]
  · intro h1 h2 h3
    simp only [Scm_NormalizePathname]
    rw [if_neg h1, if_neg h2, if_pos h3]

/-- Witness for C7 amended: identity when nothing applies; tilde
pre-empting the absolute flag; canonicalize as the fallback. -/
theorem c7_branch_structure_witness :
    Scm_NormalizePathname ⟨some "/h".toList, fun _ => none, some "/w".toList⟩
        ⟨true, false, false⟩ "x/y".toList = .ok "x/y".toList ∧
    Scm_NormalizePathname ⟨some "/h".toList, fun _ => none, some "/w".toList⟩
        ⟨true, true, false⟩ "~/a".toList
      = Scm_NormalizePathname ⟨some "/h".toList, fun _ => none, some "/w".toList⟩
        ⟨true, false, false⟩ "~/a".toList ∧
    Scm_NormalizePathname ⟨some "/h".toList, fun _ => none, some "/w".toList⟩
        ⟨false, false, true⟩ "a/./b".toList = .ok (canonPath "a/./b".toList) := by
  refine ⟨?_, ?_, ?_⟩
  · exact (c7_branch_structure ⟨some "/h".toList, fun _ => none, some "/w".toList⟩
      ⟨true, false, false⟩ "x/y".toList).1 (by decide) (by decide) rfl
  · exact (c7_branch_structure ⟨some "/h".toList, fun _ => none, some "/w".toList⟩
      ⟨true, true, false⟩ "~/a".toList).2.1 rfl rfl
  · exact (c7_branch_structure ⟨some "/h".toList, fun _ => none, some "/w".toList⟩
      ⟨false, false, true⟩ "a/./b".toList).2.2 (by decide) (by decide) rfl

end SysC
